import Mathlib

/-!
Verification of the Sollama console core against its source.

Shallow embedding of:
  * `memory_manager.py` — `ConversationMemory` (bounded conversation log,
    save/load of the persisted memory snapshot);
  * `ollama_client.py` — the streaming record consumer of
    `OllamaClient.generate_response`, `format_messages_for_ollama`, and
    `extract_sentences` (the regex `[.!?]+[\s\n]*` from `config.SENTENCE_ENDINGS`);
  * `console/sollama_app.py` — `_process_question` / `_get_ollama_response`
    (log mutation only on a successful, non-empty generation);
  * `utils/tts_manager.py` — volume / mute state transitions.

Python strings are `String` / `List Char`; times are abstract instants
(`Nat`), since the code only ever round-trips them through ISO formatting;
volumes are `ℚ` (the modelled operations store and compare volumes but never
do float arithmetic, so exact rationals are a faithful carrier).
-/

set_option autoImplicit false

namespace Sollama

/-- A chat message: `{"role": ..., "content": ...}` dict as built throughout
`memory_manager.py` and `ollama_client.py`. -/
structure Message where
  role : String
  content : String
deriving DecidableEq, Repr

/-- Abstract time instant (stands for a `datetime` value). -/
abbrev Time := Nat

/-- `config.DEFAULT_MAX_MEMORY`. -/
def DEFAULT_MAX_MEMORY : Nat := 50

/-- `config.DEFAULT_SYSTEM_PROMPT`. -/
def DEFAULT_SYSTEM_PROMPT : String :=
  "You are a helpful AI assistant with text-to-speech capabilities. You provide clear, concise, and engaging responses. When speaking, you use natural conversational language that sounds good when read aloud. You remember previous parts of our conversation and can reference them when relevant."

/-- State of `memory_manager.ConversationMemory` (the fields the modelled
operations touch: `system_prompt`, `conversation_history`, `max_history`,
`conversation_start_time`). -/
structure ConversationMemory where
  system_prompt : String
  conversation_history : List Message
  max_history : Nat
  conversation_start_time : Time
deriving DecidableEq, Repr

/-- `ConversationMemory.__init__` with an explicit prompt. -/
def ConversationMemory.init (system_prompt : String) (max_history : Nat)
    (now : Time) : ConversationMemory :=
  { system_prompt := system_prompt
    conversation_history := []
    max_history := max_history
    conversation_start_time := now }

/-- `ConversationMemory.add_exchange`: extend the history with the
user/assistant pair, then, if the length now exceeds `max_history`, drop the
two oldest messages (`self.conversation_history[2:]`). -/
def ConversationMemory.add_exchange (cm : ConversationMemory)
    (user_message assistant_response : String) : ConversationMemory :=
  let h := cm.conversation_history ++
    [⟨"user", user_message⟩, ⟨"assistant", assistant_response⟩]
  { cm with conversation_history := if cm.max_history < h.length then h.drop 2 else h }

/-- `ConversationMemory.get_full_context`. -/
def ConversationMemory.get_full_context (cm : ConversationMemory) : List Message :=
  ⟨"system", cm.system_prompt⟩ :: cm.conversation_history

/-! ### Streaming records (`OllamaClient.generate_response`, streaming branch) -/

/-- One newline-delimited line of the streaming response body.  `malformed`
stands for a line that `json.loads` rejects (a blank line, skipped by the
`if line:` guard, behaves the same way); `json response done` is a parsed
record with its optional `response` field and its `done` flag
(`chunk.get('done', False)`). -/
inductive StreamRec where
  | malformed
  | json (response : Option String) (done : Bool)
deriving DecidableEq, Repr

/-- The streaming loop of `OllamaClient.generate_response`: for each line,
skip it if it does not parse; otherwise yield the `response` field when
present, and stop after the first record whose `done` flag is true. -/
def generate_response_stream : List StreamRec → List String
  | [] => []
  | StreamRec.malformed :: rest => generate_response_stream rest
  | StreamRec.json resp d :: rest =>
    resp.toList ++ (if d then [] else generate_response_stream rest)

/-- Whether a record carries a true `done` flag. -/
def isDoneRec : StreamRec → Bool
  | StreamRec.json _ true => true
  | _ => false

/-- Spec-side helper (from the claim's words): the records up to and
including the first one whose `done` flag is true. -/
def recordsUpToDone : List StreamRec → List StreamRec
  | [] => []
  | r :: rest => r :: (if isDoneRec r then [] else recordsUpToDone rest)

/-- Spec-side helper (from the claim's words): the `response` field of each
well-formed record that contains one, in input order. -/
def responseFields (rs : List StreamRec) : List String :=
  rs.filterMap fun r =>
    match r with
    | StreamRec.json (some s) _ => some s
    | _ => none

/-! ### Sentence extraction (`OllamaClient.extract_sentences`)

`config.SENTENCE_ENDINGS` is the regex `[.!?]+[\s\n]*`; `extract_sentences`
walks `re.finditer` matches over the buffer, collects the stripped text from
the previous match end through each match end, and returns the stripped tail
after the last match.  The scanner below is that regex's matcher written as a
three-state machine over the characters: `norm` (before a match), `inPunct`
(inside the greedy `[.!?]+` run), `inSpace` (inside the greedy `[\s\n]*`
run); a match ends exactly when the run can no longer be extended.  The
whitespace set is the ASCII part of Python's `\s` / `str.strip`. -/

/-- The sentence-terminator class `[.!?]`. -/
def isSentencePunct (c : Char) : Bool := c == '.' || c == '!' || c == '?'

/-- ASCII whitespace, as matched by `\s` and stripped by `str.strip`. -/
def isSpaceChar (c : Char) : Bool :=
  c == ' ' || c == '\t' || c == '\n' || c == '\r' || c == '\x0b' || c == '\x0c'

/-- Leading-whitespace removal (left half of `str.strip`). -/
def stripLeftChars (l : List Char) : List Char := l.dropWhile isSpaceChar

/-- Trailing-whitespace removal (right half of `str.strip`). -/
def stripRightChars (l : List Char) : List Char :=
  (l.reverse.dropWhile isSpaceChar).reverse

/-- Python `str.strip()` over the ASCII whitespace set. -/
def stripChars (l : List Char) : List Char := stripRightChars (stripLeftChars l)

/-- `str.strip()` on a `String`. -/
def pyStrip (s : String) : String := String.mk (stripChars s.data)

/-- Scanner state: outside a match / inside `[.!?]+` / inside `[\s\n]*`. -/
inductive ScanMode where
  | norm
  | inPunct
  | inSpace
deriving DecidableEq, Repr

/-- The `re.finditer`-driven loop of `extract_sentences`.  `pending` holds
(reversed) the characters seen since the previous match end (`last_end`).
When a match ends, `text_buffer[last_end:match.end()].strip()` is appended if
non-empty; at the end of input the leftover `pending` is the unstripped tail
`text_buffer[last_end:]`. -/
def extractGo (mode : ScanMode) (pending : List Char) :
    List Char → List (List Char) × List Char
  | [] =>
    match mode with
    | ScanMode.norm => ([], pending.reverse)
    | _ =>
      let chunk := stripChars pending.reverse
      (if chunk.isEmpty then [] else [chunk], [])
  | c :: rest =>
    match mode with
    | ScanMode.norm =>
      if isSentencePunct c then extractGo ScanMode.inPunct (c :: pending) rest
      else extractGo ScanMode.norm (c :: pending) rest
    | ScanMode.inPunct =>
      if isSentencePunct c then extractGo ScanMode.inPunct (c :: pending) rest
      else if isSpaceChar c then extractGo ScanMode.inSpace (c :: pending) rest
      else
        let chunk := stripChars pending.reverse
        let res := extractGo ScanMode.norm [c] rest
        (if chunk.isEmpty then res.1 else chunk :: res.1, res.2)
    | ScanMode.inSpace =>
      if isSentencePunct c then
        let chunk := stripChars pending.reverse
        let res := extractGo ScanMode.inPunct [c] rest
        (if chunk.isEmpty then res.1 else chunk :: res.1, res.2)
      else if isSpaceChar c then extractGo ScanMode.inSpace (c :: pending) rest
      else
        let chunk := stripChars pending.reverse
        let res := extractGo ScanMode.norm [c] rest
        (if chunk.isEmpty then res.1 else chunk :: res.1, res.2)

/-- `OllamaClient.extract_sentences`: complete (stripped) sentences found in
the buffer, and the stripped remainder after the last match. -/
def extract_sentences (text_buffer : String) : List String × String :=
  let res := extractGo ScanMode.norm [] text_buffer.data
  (res.1.map String.mk, String.mk (stripChars res.2))

/-- Spec-side predicate (from the claim's words): the split `pre ++ t` sits
exactly at the end of a sentence-boundary match.  `pre` ends with a nonempty
terminator run followed by a (possibly empty) whitespace run, and `t` cannot
extend that match: it does not begin with whitespace (and, being
terminator-free wherever this predicate is used, cannot extend the terminator
run either).  Together with `t` containing no terminator — so no further
match can start inside `t` — this pins `t` as the text following the last
sentence boundary of the buffer. -/
def EndsWithBoundary (pre t : List Char) : Prop :=
  ∃ pre' puncts spaces, pre = pre' ++ puncts ++ spaces ∧ puncts ≠ [] ∧
    (∀ c ∈ puncts, isSentencePunct c = true) ∧
    (∀ c ∈ spaces, isSpaceChar c = true) ∧
    (∀ h : t ≠ [], isSpaceChar (t.head h) = false)

/-! ### Persisted memory snapshot (`save_memory` / `load_memory`) -/

/-- A serialized timestamp: an ISO string that parses back to the instant it
was written from (`datetime.fromisoformat` inverts `datetime.isoformat`), or
an unparseable string. -/
inductive JsonTime where
  | good (t : Time)
  | malformed
deriving DecidableEq, Repr

/-- The JSON value found under `"conversation_history"`: an array of
messages, or some other JSON value (e.g. a number) on which the later
`len(...)` call raises `TypeError`. -/
inductive HistField where
  | jlist (msgs : List Message)
  | notAList
deriving DecidableEq, Repr

/-- A parsed memory file, each key optional (`dict.get` semantics). -/
structure MemoryDoc where
  system_prompt : Option String
  conversation_history : Option HistField
  conversation_start_time : Option JsonTime
  saved_at : Option JsonTime
deriving DecidableEq, Repr

/-- What `load_memory` finds at the path: no file, a file `json.load`
rejects, or a parsed document. -/
inductive LoadInput where
  | fileNotFound
  | parseFailure
  | doc (d : MemoryDoc)
deriving DecidableEq, Repr

/-- `ConversationMemory.save_memory`: the document written on success. -/
def save_memory (cm : ConversationMemory) (now : Time) : MemoryDoc :=
  { system_prompt := some cm.system_prompt
    conversation_history := some (HistField.jlist cm.conversation_history)
    conversation_start_time := some (JsonTime.good cm.conversation_start_time)
    saved_at := some (JsonTime.good now) }

/-- The inner `try` of `load_memory`: parse the stored start time, falling
back to "now" when the key is missing (the default `datetime.now().isoformat()`
parses back to now) or the string is malformed (the bare `except`). -/
def parseStartTime (jt : Option JsonTime) (now : Time) : Time :=
  match jt with
  | some (JsonTime.good t) => t
  | some JsonTime.malformed => now
  | none => now

/-- `ConversationMemory.load_memory`.  On `fileNotFound` / `parseFailure` the
matching `except` returns `False` before any assignment.  On a parsed
document the three assignments run in order; if the history value is not a
list, the subsequent `len(self.conversation_history)` raises `TypeError`,
caught by the catch-all `except`, which returns `False` — but `system_prompt`,
`conversation_history` and `conversation_start_time` have already been
overwritten.  (The typed model keeps the old history list in that branch,
since a non-list value is not representable in `List Message`; this only
understates the mutation the source performs.) -/
def load_memory (cm : ConversationMemory) (input : LoadInput) (now : Time) :
    Bool × ConversationMemory :=
  match input with
  | LoadInput.fileNotFound => (false, cm)
  | LoadInput.parseFailure => (false, cm)
  | LoadInput.doc d =>
    let sp := d.system_prompt.getD DEFAULT_SYSTEM_PROMPT
    let st := parseStartTime d.conversation_start_time now
    match d.conversation_history.getD (HistField.jlist []) with
    | HistField.jlist msgs =>
      (true,
        { cm with
            system_prompt := sp
            conversation_history := msgs
            conversation_start_time := st })
    | HistField.notAList =>
      (false,
        { cm with
            system_prompt := sp
            conversation_start_time := st })

/-! ### One user turn (`SollamaApp._process_question`) -/

/-- Outcome of iterating `generate_response`'s chunks inside
`_get_ollama_response`: either the stream finished and the listed chunks were
accumulated, or an exception was raised after some chunks had arrived. -/
inductive GenOutcome where
  | ok (chunks : List String)
  | failed (chunks_before_failure : List String)
deriving DecidableEq, Repr

/-- `SollamaApp._process_question`, restricted to its effect on the
conversation memory: on success, `_get_ollama_response` returns
`full_response.strip()`, and the exchange is stored only when
`response and response.strip()` is truthy; any exception lands in the
`except` branch, which prints and leaves the memory untouched. -/
def process_question (cm : ConversationMemory) (user_input : String)
    (outcome : GenOutcome) : ConversationMemory :=
  match outcome with
  | GenOutcome.failed _ => cm
  | GenOutcome.ok chunks =>
    let response := pyStrip (String.join chunks)
    if response ≠ "" ∧ pyStrip response ≠ "" then
      cm.add_exchange user_input response
    else cm

/-! ### TTS volume and mute (`TTSManager`) -/

/-- The `TTSManager` attributes touched by `set_volume` / `toggle_mute`.
Volumes are exact rationals: the modelled operations compare, store and
restore volume values but never do floating-point arithmetic on them. -/
structure TTSState where
  volume : ℚ
  muted : Bool
  volume_before_mute : ℚ
deriving DecidableEq, Repr

/-- `TTSManager.set_volume`: accept an in-range volume, clearing `muted` if
set (`if self.muted: self.muted = False`), and report success. -/
def TTSState.set_volume (st : TTSState) (volume : ℚ) : Bool × TTSState :=
  if 0 ≤ volume ∧ volume ≤ 1 then
    (true, { st with volume := volume, muted := false })
  else
    (false, st)

/-- `TTSManager.toggle_mute`: muting remembers the current volume in
`volume_before_mute` and zeroes the volume; unmuting restores it. -/
def TTSState.toggle_mute (st : TTSState) : TTSState :=
  if !st.muted then
    { st with volume_before_mute := st.volume, volume := 0, muted := true }
  else
    { st with volume := st.volume_before_mute, muted := false }

/-! ### Prompt formatting (`OllamaClient.format_messages_for_ollama`) -/

/-- The body of the formatting loop: the line contributed by one message, or
nothing for an unrecognized role. -/
def roleLine (m : Message) : Option String :=
  if m.role = "system" then some ("System: " ++ m.content)
  else if m.role = "user" then some ("Human: " ++ m.content)
  else if m.role = "assistant" then some ("Assistant: " ++ m.content)
  else none

/-- `OllamaClient.format_messages_for_ollama`: the per-role lines in order,
a trailing `Assistant:` cue, joined by blank lines. -/
def format_messages_for_ollama (messages : List Message) : String :=
  String.intercalate "\n\n" (messages.filterMap roleLine ++ ["Assistant:"])

/-- Spec-side formatting (from the claim's words): every message mapped to
its tagged line — `System:` / `Human:` / `Assistant:` — double-newline-joined
with the trailing `Assistant:` cue as the last segment. -/
def formattedPromptSpec (messages : List Message) : String :=
  String.intercalate "\n\n"
    ((messages.map fun m =>
      if m.role = "system" then "System: " ++ m.content
      else if m.role = "user" then "Human: " ++ m.content
      else "Assistant: " ++ m.content) ++ ["Assistant:"])

/-! ## Theorems -/

/-- The history length after `add_exchange`: grows by two, unless the cap was
hit, in which case the oldest pair is dropped and the length is unchanged. -/
theorem add_exchange_length (cm : ConversationMemory) (u a : String) :
    (cm.add_exchange u a).conversation_history.length =
      if cm.max_history < cm.conversation_history.length + 2 then
        cm.conversation_history.length
      else cm.conversation_history.length + 2 := by
  simp only [ConversationMemory.add_exchange]
  split <;> rename_i h <;>
    simp only [List.length_append, List.length_cons, List.length_nil] at h <;>
    simp [h]

/-- `add_exchange` leaves the configured maximum untouched. -/
theorem add_exchange_max (cm : ConversationMemory) (u a : String) :
    (cm.add_exchange u a).max_history = cm.max_history := rfl

/-- One `add_exchange` step preserves the bounded-even-log invariant. -/
theorem add_exchange_preserves (cm : ConversationMemory) (u a : String)
    (hle : cm.conversation_history.length ≤ cm.max_history)
    (hev : Even cm.conversation_history.length) :
    (cm.add_exchange u a).conversation_history.length ≤ cm.max_history ∧
      Even (cm.add_exchange u a).conversation_history.length ∧
      (cm.add_exchange u a).max_history = cm.max_history := by
  refine ⟨?_, ?_, add_exchange_max cm u a⟩ <;>
    rw [add_exchange_length cm u a] <;>
    by_cases hc : cm.max_history < cm.conversation_history.length + 2
  · simpa [hc] using hle
  · simp only [hc, if_false]; omega
  · simpa [hc] using hev
  · simpa [hc] using hev.add even_two

/-- Folding a sequence of appended pairs from any state satisfying the
invariant keeps it. -/
theorem foldl_add_exchange_invariant (pairs : List (String × String)) :
    ∀ cm : ConversationMemory,
      cm.conversation_history.length ≤ cm.max_history →
      Even cm.conversation_history.length →
      (pairs.foldl (fun s p => s.add_exchange p.1 p.2) cm).conversation_history.length ≤
          (pairs.foldl (fun s p => s.add_exchange p.1 p.2) cm).max_history ∧
        Even (pairs.foldl (fun s p => s.add_exchange p.1 p.2) cm).conversation_history.length ∧
        (pairs.foldl (fun s p => s.add_exchange p.1 p.2) cm).max_history = cm.max_history := by
  induction pairs with
  | nil => intro cm hle hev; exact ⟨hle, hev, rfl⟩
  | cons p rest ih =>
    intro cm hle hev
    obtain ⟨h1, h2, h3⟩ := add_exchange_preserves cm p.1 p.2 hle hev
    obtain ⟨g1, g2, g3⟩ := ih (cm.add_exchange p.1 p.2) (h3 ▸ h1) h2
    exact ⟨g1, g2, g3.trans h3⟩

/-- C1: starting from an empty conversation log with configured maximum
`maxh`, after any sequence of `add_exchange` calls the log length is at most
`maxh` and is even.  (Quantifying over all sequences of pairs covers the state
after every individual append: it is the final state of the corresponding
prefix sequence.) -/
theorem c1_log_bounded_and_even (sp : String) (maxh : Nat) (t0 : Time)
    (pairs : List (String × String)) :
    (pairs.foldl (fun s p => s.add_exchange p.1 p.2)
        (ConversationMemory.init sp maxh t0)).conversation_history.length ≤ maxh ∧
      Even (pairs.foldl (fun s p => s.add_exchange p.1 p.2)
        (ConversationMemory.init sp maxh t0)).conversation_history.length := by
  obtain ⟨h1, h2, h3⟩ := foldl_add_exchange_invariant pairs
    (ConversationMemory.init sp maxh t0)
    (by simp [ConversationMemory.init]) (by simp [ConversationMemory.init])
  rw [h3] at h1
  exact ⟨h1, h2⟩

/-- C2: in streaming mode, `generate_response` yields exactly the `response`
field of each well-formed record that contains one, in input order, up to and
including the first record whose `done` flag is true (whose `response`, if
present, is still yielded), and malformed records are skipped without
terminating the sequence. -/
theorem c2_streaming_yields_responses_up_to_done (rs : List StreamRec) :
    generate_response_stream rs = responseFields (recordsUpToDone rs) := by
  induction rs with
  | nil => rfl
  | cons r rest ih =>
    cases r with
    | malformed =>
      simpa [generate_response_stream, recordsUpToDone, responseFields,
        isDoneRec, List.filterMap_cons] using ih
    | json resp d =>
      cases d <;> cases resp <;>
        simp [generate_response_stream, recordsUpToDone, responseFields,
          isDoneRec, List.filterMap_cons, ih]

/-- C3: a turn whose generation call fails (raises at any point while
producing chunks, whatever was already accumulated) leaves the conversation
memory — in particular the log's length and contents — unchanged. -/
theorem c3_failed_generation_leaves_log (cm : ConversationMemory)
    (user_input : String) (chunks_before_failure : List String) :
    process_question cm user_input (GenOutcome.failed chunks_before_failure) = cm ∧
      (process_question cm user_input
          (GenOutcome.failed chunks_before_failure)).conversation_history =
        cm.conversation_history :=
  ⟨rfl, rfl⟩

/-- C5: the two concrete `extract_sentences` examples — a buffer with one
terminated sentence and a trailing fragment, and a buffer with no terminator
at all. -/
theorem c5_extract_sentences_examples :
    extract_sentences "Hello world. How are" = (["Hello world."], "How are") ∧
      extract_sentences "No terminator here" = ([], "No terminator here") := by
  exact ⟨rfl, rfl⟩

/-- C6: saving a memory state and loading the written document reproduces
`system_prompt` and `conversation_history` exactly (and in fact the
start-time instant itself, since the ISO round trip preserves the value),
whatever state the loading instance held before. -/
theorem c6_save_load_round_trip (cm cm0 : ConversationMemory)
    (t_save t_load : Time) :
    load_memory cm0 (LoadInput.doc (save_memory cm t_save)) t_load =
      (true,
        { cm0 with
            system_prompt := cm.system_prompt
            conversation_history := cm.conversation_history
            conversation_start_time := cm.conversation_start_time }) := rfl

/-- C7 (code bug): loading a parseable document whose
`conversation_history` value is not a list makes `load_memory` report
failure, yet `system_prompt` has already been overwritten — the failed load
is not free of partial application. -/
theorem c7_failed_load_partially_applies :
    (load_memory ⟨"custom prompt", [], 50, 0⟩
        (LoadInput.doc ⟨none, some HistField.notAList, none, none⟩) 9).1 = false ∧
      (load_memory ⟨"custom prompt", [], 50, 0⟩
          (LoadInput.doc ⟨none, some HistField.notAList, none, none⟩)
            9).2.system_prompt ≠ "custom prompt" := by
  exact ⟨rfl, by decide⟩

/-- C8: double `toggle_mute` from an unmuted state restores the exact
pre-mute volume with `muted` cleared, and `set_volume` with an in-range value
on a muted state accepts the volume and implicitly unmutes. -/
theorem c8_mute_toggle_and_set_volume (st st2 : TTSState) (v : ℚ)
    (hmuted : st.muted = false) (_hmuted2 : st2.muted = true)
    (h0 : 0 ≤ v) (h1 : v ≤ 1) :
    (st.toggle_mute.toggle_mute.volume = st.volume ∧
        st.toggle_mute.toggle_mute.muted = false) ∧
      (st2.set_volume v).1 = true ∧
        (st2.set_volume v).2.volume = v ∧ (st2.set_volume v).2.muted = false := by
  refine ⟨?_, ?_⟩
  · simp [TTSState.toggle_mute, hmuted]
  · simp [TTSState.set_volume, h0, h1]

/-- Witness for C8 at concrete states and volume. -/
theorem c8_mute_toggle_and_set_volume_witness :
    (⟨7/10, false, 1⟩ : TTSState).muted = false ∧
      (⟨0, true, 2/5⟩ : TTSState).muted = true ∧
      (0 : ℚ) ≤ 1/2 ∧ (1/2 : ℚ) ≤ 1 ∧
      (((⟨7/10, false, 1⟩ : TTSState).toggle_mute.toggle_mute.volume =
            (⟨7/10, false, 1⟩ : TTSState).volume ∧
          (⟨7/10, false, 1⟩ : TTSState).toggle_mute.toggle_mute.muted = false) ∧
        ((⟨0, true, 2/5⟩ : TTSState).set_volume (1/2)).1 = true ∧
          ((⟨0, true, 2/5⟩ : TTSState).set_volume (1/2)).2.volume = 1/2 ∧
          ((⟨0, true, 2/5⟩ : TTSState).set_volume (1/2)).2.muted = false) :=
  ⟨rfl, rfl, by norm_num, by norm_num,
    c8_mute_toggle_and_set_volume ⟨7/10, false, 1⟩ ⟨0, true, 2/5⟩ (1/2)
      rfl rfl (by norm_num) (by norm_num)⟩

/-- C9: `load_memory` installs the file's history verbatim: a well-formed
document with seven messages loaded into a memory configured with maximum 4
yields an odd, over-long log, and the following `add_exchange` drops only one
pair, leaving the length still above the maximum. -/
theorem c9_load_skips_history_validation :
    (load_memory (ConversationMemory.init "p" 4 0)
        (LoadInput.doc
          ⟨none, some (HistField.jlist (List.replicate 7 ⟨"user", "x"⟩)), none,
            none⟩) 1).1 = true ∧
      (load_memory (ConversationMemory.init "p" 4 0)
          (LoadInput.doc
            ⟨none, some (HistField.jlist (List.replicate 7 ⟨"user", "x"⟩)), none,
              none⟩) 1).2.conversation_history.length = 7 ∧
      ¬ ((load_memory (ConversationMemory.init "p" 4 0)
          (LoadInput.doc
            ⟨none, some (HistField.jlist (List.replicate 7 ⟨"user", "x"⟩)), none,
              none⟩) 1).2.conversation_history.length ≤ 4 ∧
        Even (load_memory (ConversationMemory.init "p" 4 0)
          (LoadInput.doc
            ⟨none, some (HistField.jlist (List.replicate 7 ⟨"user", "x"⟩)), none,
              none⟩) 1).2.conversation_history.length) ∧
      ((load_memory (ConversationMemory.init "p" 4 0)
          (LoadInput.doc
            ⟨none, some (HistField.jlist (List.replicate 7 ⟨"user", "x"⟩)), none,
              none⟩) 1).2.add_exchange "u" "a").conversation_history.length = 7 ∧
      4 < ((load_memory (ConversationMemory.init "p" 4 0)
          (LoadInput.doc
            ⟨none, some (HistField.jlist (List.replicate 7 ⟨"user", "x"⟩)), none,
              none⟩) 1).2.add_exchange "u" "a").conversation_history.length := by
  decide

/-- For messages whose roles are all recognized, the formatting loop keeps
every message. -/
theorem roleLine_filterMap_eq_map (messages : List Message)
    (h : ∀ m ∈ messages,
      m.role = "system" ∨ m.role = "user" ∨ m.role = "assistant") :
    messages.filterMap roleLine =
      messages.map fun m =>
        if m.role = "system" then "System: " ++ m.content
        else if m.role = "user" then "Human: " ++ m.content
        else "Assistant: " ++ m.content := by
  induction messages with
  | nil => rfl
  | cons m rest ih =>
    have hm := h m (List.mem_cons_self m rest)
    have hrest := ih fun x hx => h x (List.mem_cons_of_mem m hx)
    rcases hm with h1 | h1 | h1 <;>
      simp [List.filterMap_cons, roleLine, h1, hrest]

/-- C10: for messages whose roles are all in {system, user, assistant}, the
formatted prompt is the double-newline join of the tagged lines, in order,
with the trailing `Assistant:` cue as the last segment. -/
theorem c10_format_messages (messages : List Message)
    (h : ∀ m ∈ messages,
      m.role = "system" ∨ m.role = "user" ∨ m.role = "assistant") :
    format_messages_for_ollama messages = formattedPromptSpec messages := by
  unfold format_messages_for_ollama formattedPromptSpec
  rw [roleLine_filterMap_eq_map messages h]

/-- Witness for C10 at a concrete three-message conversation. -/
theorem c10_format_messages_witness :
    format_messages_for_ollama
        [⟨"system", "be brief"⟩, ⟨"user", "hi"⟩, ⟨"assistant", "hello"⟩] =
      formattedPromptSpec
        [⟨"system", "be brief"⟩, ⟨"user", "hi"⟩, ⟨"assistant", "hello"⟩] :=
  c10_format_messages
    [⟨"system", "be brief"⟩, ⟨"user", "hi"⟩, ⟨"assistant", "hello"⟩]
    (by decide)

/-- C4 counterexample: on the buffer `"A. b "` the sentence boundary is
`". "`, so the text following it is `"b "`; but `extract_sentences` strips
the remainder and returns `"b"`, not exactly that trailing text. -/
theorem c4_counterexample_remainder_stripped :
    extract_sentences "A. b " = (["A."], "b") ∧ ("b" : String) ≠ "b " := by
  exact ⟨rfl, by decide⟩

/-- `stripChars` is `rdropWhile` after `dropWhile` on the whitespace class. -/
theorem stripChars_eq (l : List Char) :
    stripChars l =
      List.rdropWhile isSpaceChar (List.dropWhile isSpaceChar l) := rfl

/-- Right-stripping keeps a left-stripped list left-stripped. -/
theorem dropWhile_rdropWhile_self (l : List Char)
    (h : List.dropWhile isSpaceChar l = l) :
    List.dropWhile isSpaceChar (List.rdropWhile isSpaceChar l) =
      List.rdropWhile isSpaceChar l := by
  rw [List.dropWhile_eq_self_iff]
  intro hl
  have hpre : List.rdropWhile isSpaceChar l <+: l :=
    List.rdropWhile_prefix isSpaceChar l
  have hlen : 0 < l.length := lt_of_lt_of_le hl hpre.length_le
  have hhead := List.dropWhile_eq_self_iff.mp h hlen
  have hget := List.IsPrefix.getElem hpre hl
  simp only [List.get_eq_getElem] at hhead ⊢
  rw [hget]
  exact hhead

/-- Python `strip` is idempotent. -/
theorem stripChars_idem (l : List Char) :
    stripChars (stripChars l) = stripChars l := by
  rw [stripChars_eq, stripChars_eq,
    dropWhile_rdropWhile_self _ (List.dropWhile_idempotent isSpaceChar l),
    List.rdropWhile_idempotent]

/-- Stripping only removes characters, never adds them. -/
theorem mem_stripChars {c : Char} {l : List Char} (h : c ∈ stripChars l) :
    c ∈ l := by
  rw [stripChars_eq] at h
  exact (List.dropWhile_suffix isSpaceChar).subset
    ((List.rdropWhile_prefix isSpaceChar _).subset h)

/-- On a buffer with no sentence terminator, the scanner finds nothing and
returns the whole buffer (after the already-seen `pending` prefix). -/
theorem extractGo_no_punct (cs : List Char) :
    ∀ pending, (∀ c ∈ cs, isSentencePunct c = false) →
      extractGo ScanMode.norm pending cs = ([], pending.reverse ++ cs) := by
  induction cs with
  | nil => intro pending _; simp [extractGo]
  | cons c rest ih =>
    intro pending h
    have hc : isSentencePunct c = false := h c (List.mem_cons_self c rest)
    have hrest : ∀ x ∈ rest, isSentencePunct x = false :=
      fun x hx => h x (List.mem_cons_of_mem c hx)
    simp [extractGo, hc, ih (c :: pending) hrest]

/-- The raw remainder produced by the scanner is the text following the last
sentence-boundary match end: the processed text splits as `pre ++ t` where
`t` is the remainder, `t` is terminator-free, and `pre` is empty (no match at
all, only possible in `norm` mode) or ends with a complete boundary that `t`
cannot extend.  The three preconditions record what `pending` holds in each
mode: terminator-free text in `norm`, text plus a nonempty terminator run in
`inPunct`, text plus a terminator run plus a whitespace run in `inSpace`. -/
theorem extractGo_boundary (cs : List Char) :
    ∀ (mode : ScanMode) (pending : List Char),
      (mode = ScanMode.norm → ∀ c ∈ pending, isSentencePunct c = false) →
      (mode = ScanMode.inPunct → ∃ seg puncts,
        pending.reverse = seg ++ puncts ∧ puncts ≠ [] ∧
        (∀ c ∈ puncts, isSentencePunct c = true)) →
      (mode = ScanMode.inSpace → ∃ seg puncts spaces,
        pending.reverse = seg ++ puncts ++ spaces ∧ puncts ≠ [] ∧
        (∀ c ∈ puncts, isSentencePunct c = true) ∧
        (∀ c ∈ spaces, isSpaceChar c = true)) →
      ∃ pre t, pending.reverse ++ cs = pre ++ t ∧
        (extractGo mode pending cs).2 = t ∧
        (∀ c ∈ t, isSentencePunct c = false) ∧
        ((pre = [] ∧ mode = ScanMode.norm) ∨ EndsWithBoundary pre t) := by
  induction cs with
  | nil =>
    intro mode pending hnorm hpunct hspace
    cases mode with
    | norm =>
      refine ⟨[], pending.reverse, by simp, by simp [extractGo], ?_,
        Or.inl ⟨rfl, rfl⟩⟩
      intro c hc
      exact hnorm rfl c (by simpa using hc)
    | inPunct =>
      obtain ⟨seg, puncts, hp, hne, hall⟩ := hpunct rfl
      refine ⟨pending.reverse, [], by simp, by simp [extractGo], by simp,
        Or.inr ?_⟩
      exact ⟨seg, puncts, [], by simp [hp], hne, hall, by simp,
        fun h => absurd rfl h⟩
    | inSpace =>
      obtain ⟨seg, puncts, spaces, hp, hne, hallp, halls⟩ := hspace rfl
      refine ⟨pending.reverse, [], by simp, by simp [extractGo], by simp,
        Or.inr ?_⟩
      exact ⟨seg, puncts, spaces, by simp [hp], hne, hallp, halls,
        fun h => absurd rfl h⟩
  | cons c rest ih =>
    intro mode pending hnorm hpunct hspace
    cases mode with
    | norm =>
      have hpf := hnorm rfl
      cases hc : isSentencePunct c with
      | true =>
        obtain ⟨pre, t, htot, hsnd, hnp, hor⟩ := ih ScanMode.inPunct
          (c :: pending) (fun h => nomatch h)
          (by intro _
              exact ⟨pending.reverse, [c], by simp, by simp,
                by intro x hx; simp at hx; subst hx; exact hc⟩)
          (fun h => nomatch h)
        refine ⟨pre, t, by simpa using htot,
          by simpa [extractGo, hc] using hsnd, hnp, ?_⟩
        rcases hor with ⟨_, hmode⟩ | hb
        · exact absurd hmode (by decide)
        · exact Or.inr hb
      | false =>
        obtain ⟨pre, t, htot, hsnd, hnp, hor⟩ := ih ScanMode.norm (c :: pending)
          (by intro _ x hx
              rcases List.mem_cons.mp hx with rfl | hx2
              · exact hc
              · exact hpf x hx2)
          (fun h => nomatch h) (fun h => nomatch h)
        refine ⟨pre, t, by simpa using htot,
          by simpa [extractGo, hc] using hsnd, hnp, ?_⟩
        rcases hor with ⟨hpre, _⟩ | hb
        · exact Or.inl ⟨hpre, rfl⟩
        · exact Or.inr hb
    | inPunct =>
      obtain ⟨seg, puncts, hp, hne, hall⟩ := hpunct rfl
      cases hc : isSentencePunct c with
      | true =>
        obtain ⟨pre, t, htot, hsnd, hnp, hor⟩ := ih ScanMode.inPunct
          (c :: pending) (fun h => nomatch h)
          (by intro _
              refine ⟨seg, puncts ++ [c], by simp [hp], by simp, ?_⟩
              intro x hx
              rcases List.mem_append.mp hx with hx2 | hx2
              · exact hall x hx2
              · simp at hx2; subst hx2; exact hc)
          (fun h => nomatch h)
        refine ⟨pre, t, by simpa using htot,
          by simpa [extractGo, hc] using hsnd, hnp, ?_⟩
        rcases hor with ⟨_, hmode⟩ | hb
        · exact absurd hmode (by decide)
        · exact Or.inr hb
      | false =>
        cases hs : isSpaceChar c with
        | true =>
          obtain ⟨pre, t, htot, hsnd, hnp, hor⟩ := ih ScanMode.inSpace
            (c :: pending) (fun h => nomatch h) (fun h => nomatch h)
            (by intro _
                refine ⟨seg, puncts, [c], by simp [hp], hne, hall, ?_⟩
                intro x hx; simp at hx; subst hx; exact hs)
          refine ⟨pre, t, by simpa using htot,
            by simpa [extractGo, hc, hs] using hsnd, hnp, ?_⟩
          rcases hor with ⟨_, hmode⟩ | hb
          · exact absurd hmode (by decide)
          · exact Or.inr hb
        | false =>
          obtain ⟨pre2, t, htot, hsnd, hnp, hor⟩ := ih ScanMode.norm [c]
            (by intro _ x hx; simp at hx; subst hx; exact hc)
            (fun h => nomatch h) (fun h => nomatch h)
          refine ⟨pending.reverse ++ pre2, t, ?_,
            by simpa [extractGo, hc, hs] using hsnd, hnp, Or.inr ?_⟩
          · rw [List.append_assoc, ← htot]; simp
          · rcases hor with ⟨hpre2, _⟩ |
              ⟨pre', puncts2, spaces2, hsplit, hne2, hallp2, halls2, hhead⟩
            · subst hpre2
              have heq : t = c :: rest := by simpa using htot.symm
              subst heq
              exact ⟨seg, puncts, [], by simp [hp], hne, hall, by simp,
                fun h => by simpa using hs⟩
            · exact ⟨pending.reverse ++ pre', puncts2, spaces2,
                by simp [hsplit], hne2, hallp2, halls2, hhead⟩
    | inSpace =>
      obtain ⟨seg, puncts, spaces, hp, hne, hallp, halls⟩ := hspace rfl
      cases hc : isSentencePunct c with
      | true =>
        obtain ⟨pre2, t, htot, hsnd, hnp, hor⟩ := ih ScanMode.inPunct [c]
          (fun h => nomatch h)
          (by intro _
              exact ⟨[], [c], by simp, by simp,
                by intro x hx; simp at hx; subst hx; exact hc⟩)
          (fun h => nomatch h)
        refine ⟨pending.reverse ++ pre2, t, ?_,
          by simpa [extractGo, hc] using hsnd, hnp, Or.inr ?_⟩
        · rw [List.append_assoc, ← htot]; simp
        · rcases hor with ⟨_, hmode⟩ |
            ⟨pre', puncts2, spaces2, hsplit, hne2, hallp2, halls2, hhead⟩
          · exact absurd hmode (by decide)
          · exact ⟨pending.reverse ++ pre', puncts2, spaces2,
              by simp [hsplit], hne2, hallp2, halls2, hhead⟩
      | false =>
        cases hs : isSpaceChar c with
        | true =>
          obtain ⟨pre, t, htot, hsnd, hnp, hor⟩ := ih ScanMode.inSpace
            (c :: pending) (fun h => nomatch h) (fun h => nomatch h)
            (by intro _
                refine ⟨seg, puncts, spaces ++ [c], by simp [hp], hne, hallp, ?_⟩
                intro x hx
                rcases List.mem_append.mp hx with hx2 | hx2
                · exact halls x hx2
                · simp at hx2; subst hx2; exact hs)
          refine ⟨pre, t, by simpa using htot,
            by simpa [extractGo, hc, hs] using hsnd, hnp, ?_⟩
          rcases hor with ⟨_, hmode⟩ | hb
          · exact absurd hmode (by decide)
          · exact Or.inr hb
        | false =>
          obtain ⟨pre2, t, htot, hsnd, hnp, hor⟩ := ih ScanMode.norm [c]
            (by intro _ x hx; simp at hx; subst hx; exact hc)
            (fun h => nomatch h) (fun h => nomatch h)
          refine ⟨pending.reverse ++ pre2, t, ?_,
            by simpa [extractGo, hc, hs] using hsnd, hnp, Or.inr ?_⟩
          · rw [List.append_assoc, ← htot]; simp
          · rcases hor with ⟨hpre2, _⟩ |
              ⟨pre', puncts2, spaces2, hsplit, hne2, hallp2, halls2, hhead⟩
            · subst hpre2
              have heq : t = c :: rest := by simpa using htot.symm
              subst heq
              exact ⟨seg, puncts, spaces, by simp [hp], hne, hallp, halls,
                fun h => by simpa using hs⟩
            · exact ⟨pending.reverse ++ pre', puncts2, spaces2,
                by simp [hsplit], hne2, hallp2, halls2, hhead⟩

/-- C4 (amended): `extract_sentences` is idempotent — run on its returned
remainder it yields no new sentences and the same remainder — and the
remainder is exactly the text of the buffer that follows the last sentence
boundary, up to stripping its leading and trailing whitespace: the buffer
splits as `pre ++ t` with `t` terminator-free (so no boundary lies in `t`)
and `pre` empty or ending in a complete boundary that `t` cannot extend (so
the split sits at the last match end), and the returned remainder is `t`
stripped — only surrounding whitespace, never other trailing text, is
dropped. -/
theorem c4_extract_sentences_idem_and_remainder (s : String) :
    extract_sentences (extract_sentences s).2 = ([], (extract_sentences s).2) ∧
      ∃ pre t : List Char, s.data = pre ++ t ∧
        (∀ c ∈ t, isSentencePunct c = false) ∧
        (extract_sentences s).2 = String.mk (stripChars t) ∧
        (pre = [] ∨ EndsWithBoundary pre t) := by
  obtain ⟨pre, t, htot, hsnd, hnp, hor⟩ := extractGo_boundary s.data
    ScanMode.norm [] (fun _ => by simp) (fun h => nomatch h) (fun h => nomatch h)
  have htot2 : s.data = pre ++ t := by simpa using htot
  have hrem : (extract_sentences s).2 = String.mk (stripChars t) := by
    simp [extract_sentences, hsnd]
  refine ⟨?_, pre, t, htot2, hnp, hrem, ?_⟩
  · rw [hrem]
    have hnp2 : ∀ c ∈ stripChars t, isSentencePunct c = false :=
      fun c hc => hnp c (mem_stripChars hc)
    have hdata : (String.mk (stripChars t)).data = stripChars t := rfl
    simp only [extract_sentences, hdata]
    rw [extractGo_no_punct (stripChars t) [] hnp2]
    simp [stripChars_idem]
  · rcases hor with ⟨hpre, _⟩ | hb
    · exact Or.inl hpre
    · exact Or.inr hb


end Sollama
